import Mathlib

/-!
Shallow embedding of the text-transformation core of `libdispatch/dutil.c`
(netcdf-c): backslash escape/unescape, XML entity escape, delimiter split,
segment join, mode-list extraction and mode-tag membership testing.

C byte strings (NUL-terminated `char*`) are modelled as `List Char`; the
NUL terminator is implicit (a list element never models the terminator,
except where a scan explicitly walks over it, see `unescLoop`).  The
`NClist` dynamic list is modelled as a Lean `List`, with `nclistpush` as
append at the end; `NCbytes` buffers are modelled as `List Char` with
`ncbytescat` as append.  Status codes are the subset of netcdf error
codes these functions return.
-/

namespace Dutil

/-- Status codes returned by the functions of `dutil.c`:
`NC_NOERR`, `NC_EURL`, `NC_ENOMEM`, `NC_EINVAL`. -/
inductive Stat where
  | NOERR
  | EURL
  | ENOMEM
  | EINVAL
deriving DecidableEq

/-- `NC_backslashEscape` (dutil.c:79-104).  The C loop copies each input
character, except that `\`, `/`, `.`, `@` all fall through to the branch
`*q++ = '\\'; *q++ = '\\';`, which emits two backslash characters (the
original character is not re-emitted). -/
def NC_backslashEscape : List Char → List Char
  | [] => []
  | c :: rest =>
    (if c = '\\' ∨ c = '/' ∨ c = '.' ∨ c = '@' then ['\\', '\\'] else [c])
      ++ NC_backslashEscape rest

/-- Outcome of the `NC_backslashUnescape` scan: `ok` when the loop exits at
the input's NUL terminator, `oob` when a trailing `\` makes the loop copy
the terminator itself and then read past the end of the buffer. -/
inductive UStat where
  | ok
  | oob
deriving DecidableEq

/-- The scan loop of `NC_backslashUnescape` (dutil.c:118-125).  On `\` the
pointer is advanced and the following byte is copied unconditionally; when
the `\` is the last byte of the string the copied byte is the NUL
terminator (modelled by appending `'\x00'`) and the next loop test reads
one past the end of the buffer (modelled by the `oob` status). -/
def unescLoop : List Char → List Char → UStat × List Char
  | [], out => (UStat.ok, out)
  | c :: rest, out =>
    if c = '\\' then
      match rest with
      | [] => (UStat.oob, out ++ ['\x00'])
      | c2 :: rest' => unescLoop rest' (out ++ [c2])
    else unescLoop rest (out ++ [c])

/-- `NC_backslashUnescape` (dutil.c:106-128), paired with the status of its
scan (`ok` = the loop stopped at the terminator, `oob` = it ran past it). -/
def NC_backslashUnescape (esc : List Char) : UStat × List Char :=
  unescLoop esc []

/-- `NC_entityescape` (dutil.c:130-162): each of `& < > " '` is replaced by
its XML entity reference, all other characters are copied. -/
def NC_entityescape : List Char → List Char
  | [] => []
  | c :: rest =>
    (match c with
     | '&' => '&' :: 'a' :: 'm' :: 'p' :: [';']
     | '<' => '&' :: 'l' :: 't' :: [';']
     | '>' => '&' :: 'g' :: 't' :: [';']
     | '"' => '&' :: 'q' :: 'u' :: 'o' :: 't' :: [';']
     | '\'' => '&' :: 'a' :: 'p' :: 'o' :: 's' :: [';']
     | c => [c]) ++ NC_entityescape rest

/-- `NC_shellUnescape` (dutil.c:164-193): a backslash is dropped only when
immediately followed by `#`; every other byte is copied. -/
def NC_shellUnescape : List Char → List Char
  | [] => []
  | '\\' :: '#' :: rest => '#' :: NC_shellUnescape rest
  | c :: rest => c :: NC_shellUnescape rest

/-- The `for(;*p;)` loop of `NC_split_delim` (dutil.c:375-389).  One
iteration takes the run up to the next delimiter (`strchr`), fails with
`NC_EURL` when the run is empty, otherwise pushes the run on the segment
list and resumes after the delimiter (or at the terminator).  The segment
list already holds whatever the caller had pushed before; a failing
iteration returns it as-is (the C code does not roll `segments` back). -/
def splitLoop (d : Char) (p : List Char) (acc : List (List Char)) :
    Stat × List (List Char) :=
  if hp : p = [] then (Stat.NOERR, acc)
  else if hs : p.takeWhile (fun c => c != d) = [] then (Stat.EURL, acc)
  else
    splitLoop d (p.dropWhile (fun c => c != d)).tail
      (acc ++ [p.takeWhile (fun c => c != d)])
termination_by p.length
decreasing_by
  simp only [List.length_tail]
  have h1 : (p.takeWhile (fun c => c != d)).length
      + (p.dropWhile (fun c => c != d)).length = p.length := by
    rw [← List.length_append, List.takeWhile_append_dropWhile]
  have h2 : 0 < (p.takeWhile (fun c => c != d)).length :=
    List.length_pos.mpr hs
  omega

/-- `NC_split_delim` (dutil.c:362-394).  An empty argument is accepted and
leaves the segment list untouched; a single leading delimiter is skipped;
then the scan loop runs.  Returns the final status together with the final
contents of the caller's segment list. -/
def NC_split_delim (arg : List Char) (d : Char) (segments : List (List Char)) :
    Stat × List (List Char) :=
  if arg.length = 0 then (Stat.NOERR, segments)
  else
    splitLoop d (match arg with
                 | [] => arg
                 | c :: t => if c = d then t else arg) segments

/-- `NC_getmodelist` (dutil.c:278-296).  A missing or empty mode string
yields an empty list; otherwise the string is split at commas.  On success
the (freshly allocated) list is handed to the caller; on failure it is
freed and the caller's `modelistp` is never written, modelled by `none`. -/
def NC_getmodelist (modestr : Option (List Char)) :
    Stat × Option (List (List Char)) :=
  match modestr with
  | none => (Stat.NOERR, some [])
  | some s =>
    if s.length = 0 then (Stat.NOERR, some [])
    else
      match NC_split_delim s ',' [] with
      | (Stat.NOERR, segs) => (Stat.NOERR, some segs)
      | (st, _) => (st, none)

/-- Modelled from the spec: `strcasecmp(a,b)==0` (libc, outside this
excerpt) is case-insensitive equality of the two byte strings; on ASCII
bytes this is equality after lower-casing every character. -/
def strcaseEq (a b : List Char) : Bool :=
  a.map Char.toLower = b.map Char.toLower

/-- The key `"mode"` as a character list. -/
def modeKey : List Char := 'm' :: 'o' :: 'd' :: ['e']

/-- `NC_testmode` (dutil.c:317-338).  The URI fragment store
(`ncurifragmentlookup`, defined in ncuri.c outside this excerpt) is
modelled from the spec as an opaque key-to-value mapping, here a function
from keys to optional values.  A missing `mode` key gives `false`; a mode
string whose parse fails gives `false` (the status is swallowed);
otherwise the tag is searched case-insensitively in the mode list. -/
def NC_testmode (frag : List Char → Option (List Char)) (tag : List Char) :
    Bool :=
  match frag modeKey with
  | none => false
  | some modestr =>
    match NC_getmodelist (some modestr) with
    | (Stat.NOERR, modelist) =>
      (modelist.getD []).any (fun m => strcaseEq m tag)
    | _ => false

/-- `NC_join` (dutil.c:396-423).  A null segment list fails with
`NC_EINVAL`; an empty list produces `"/"`; otherwise each segment is
appended to the buffer, preceded by `'/'` unless its first character
already is `'/'` (an empty segment's `seg[0]` is the NUL terminator, which
is not `'/'`). -/
def NC_join (segments : Option (List (List Char))) : Stat × Option (List Char) :=
  match segments with
  | none => (Stat.EINVAL, none)
  | some segs =>
    if segs.length = 0 then (Stat.NOERR, some ['/'])
    else
      (Stat.NOERR,
       some (segs.foldl
              (fun buf seg =>
                buf ++ (if seg.head? = some '/' then seg else '/' :: seg))
              []))

/-! ## Specification-side definitions -/

/-- Per-character contract of the escape function as the code actually
implements it: each of `\ / . @` becomes the two-character sequence `\\`,
every other byte is copied verbatim. -/
def escCharAmended (c : Char) : List Char :=
  if c = '\\' ∨ c = '/' ∨ c = '.' ∨ c = '@' then ['\\', '\\'] else [c]

/-- Per-character contract of the entity escaper, following the spec: the
XML entity reference for `& < > " '`, the character itself otherwise. -/
def entityRef (c : Char) : List Char :=
  match c with
  | '&' => "&amp;".toList
  | '<' => "&lt;".toList
  | '>' => "&gt;".toList
  | '"' => "&quot;".toList
  | '\'' => "&apos;".toList
  | c => [c]

/-- Interleaving of segments with single occurrences of the delimiter,
as the reconstruction property describes it. -/
def joinDelim (d : Char) : List (List Char) → List Char
  | [] => []
  | [s] => s
  | s :: rest => s ++ d :: joinDelim d rest

/-- Whether the string contains two adjacent occurrences of `d` (a
zero-length run between two delimiters). -/
def hasAdjacent (d : Char) : List Char → Bool
  | a :: b :: rest => (a = d && b = d) || hasAdjacent d (b :: rest)
  | _ => false

/-- Length of the trailing run of backslashes; the final character of a
string is an unpaired `\` exactly when this is odd. -/
def trailingRun (esc : List Char) : Nat :=
  (esc.reverse.takeWhile (fun c => c = '\\')).length

/-- Spec-side contract of one `NC_join` step: the segment, preceded by
`'/'` exactly when it does not already start with `'/'`. -/
def withSlash (seg : List Char) : List Char :=
  if seg.head? = some '/' then seg else '/' :: seg

/-! ## C1: escape/unescape round trip -/

/-- C1: the claim `backslashUnescape(backslashEscape(s)) == s` fails on the
code at `s = "/"`: the escape loop emits two backslashes for `/` (losing
the character), so the round trip yields `"\"` instead of `"/"`. -/
theorem roundtrip_bug_on_slash :
    NC_backslashEscape ['/'] = ['\\', '\\'] ∧
    NC_backslashUnescape (NC_backslashEscape ['/']) = (UStat.ok, ['\\']) ∧
    (NC_backslashUnescape (NC_backslashEscape ['/'])).snd ≠ ['/'] := by
  decide

/-! ## C2: pointwise contract of the escape -/

/-- C2 counterexample: the claim says `'/'` is copied verbatim, but the
code maps the one-character string `"/"` to two backslashes. -/
theorem escape_slash_counterexample :
    NC_backslashEscape ['/'] = ['\\', '\\'] ∧
    NC_backslashEscape ['/'] ≠ ['/'] := by
  decide

/-- C2 (amended): for every input string, each of the characters
`\ / . @` is transformed to the two-character sequence `\\`, and every
other byte is copied to the output verbatim. -/
theorem escape_amended_pointwise (s : List Char) :
    NC_backslashEscape s = (s.map escCharAmended).flatten := by
  induction s with
  | nil => rfl
  | cons c rest ih => simp [NC_backslashEscape, escCharAmended, ih]

/-! ## C8: entity escape -/

/-- C8: each occurrence of `& < > " '` is replaced by its XML entity
reference and every other character is copied unchanged, in input order;
in particular `entityEscape("<a&b>") = "&lt;a&amp;b&gt;"`. -/
theorem entityescape_pointwise :
    (∀ s : List Char, NC_entityescape s = (s.map entityRef).flatten) ∧
    NC_entityescape "<a&b>".toList = "&lt;a&amp;b&gt;".toList := by
  constructor
  · intro s
    induction s with
    | nil => rfl
    | cons c rest ih =>
      show (match c with
            | '&' => '&' :: 'a' :: 'm' :: 'p' :: [';']
            | '<' => '&' :: 'l' :: 't' :: [';']
            | '>' => '&' :: 'g' :: 't' :: [';']
            | '"' => '&' :: 'q' :: 'u' :: 'o' :: 't' :: [';']
            | '\'' => '&' :: 'a' :: 'p' :: 'o' :: 's' :: [';']
            | c => [c]) ++ NC_entityescape rest = _
      rw [ih]
      rcases c with ⟨⟨n⟩, hv⟩
      rfl
  · decide

/-! ## Helper lemmas about the split loop -/

theorem splitLoop_nil (d : Char) (acc : List (List Char)) :
    splitLoop d [] acc = (Stat.NOERR, acc) := by
  simp [splitLoop]

theorem splitLoop_empty_seg (d : Char) (p : List Char) (acc : List (List Char))
    (hp : p ≠ []) (hs : p.takeWhile (fun c => c != d) = []) :
    splitLoop d p acc = (Stat.EURL, acc) := by
  rw [splitLoop]
  simp [hp, hs]

theorem splitLoop_step (d : Char) (p : List Char) (acc : List (List Char))
    (hp : p ≠ []) (hs : p.takeWhile (fun c => c != d) ≠ []) :
    splitLoop d p acc
      = splitLoop d (p.dropWhile (fun c => c != d)).tail
          (acc ++ [p.takeWhile (fun c => c != d)]) := by
  rw [splitLoop]
  simp [hp, hs]

theorem splitLoop_delim_head (d : Char) (t : List Char) (acc : List (List Char)) :
    splitLoop d (d :: t) acc = (Stat.EURL, acc) :=
  splitLoop_empty_seg d _ acc (by simp) (by simp)

theorem takeWhile_seg_ne (d : Char) (p : List Char) :
    ∀ c ∈ p.takeWhile (fun c => c != d), c ≠ d := by
  intro c hc
  simpa using List.mem_takeWhile_imp hc

theorem dropWhile_cons_head (d : Char) (p : List Char)
    (h : p.dropWhile (fun c => c != d) ≠ []) :
    ∃ t, p.dropWhile (fun c => c != d) = d :: t := by
  obtain ⟨a, t, he⟩ := List.exists_cons_of_ne_nil h
  have hh := List.head?_dropWhile_not (fun c => c != d) p
  rw [he] at hh
  simp only [List.head?_cons] at hh
  simp at hh
  exact ⟨t, by rw [he, hh]⟩

theorem NC_split_delim_eq (arg : List Char) (d : Char)
    (init : List (List Char)) (h : arg ≠ []) :
    NC_split_delim arg d init
      = splitLoop d (if arg.head? = some d then arg.tail else arg) init := by
  cases arg with
  | nil => simp at h
  | cons c t => by_cases hc : c = d <;> simp [NC_split_delim, hc]

/-! ## Adjacent-delimiter facts -/

theorem hasAdjacent_append_left (d : Char) (seg rest : List Char)
    (hseg : ∀ c ∈ seg, c ≠ d) :
    hasAdjacent d (seg ++ rest) = hasAdjacent d rest := by
  induction seg with
  | nil => rfl
  | cons a seg' ih =>
    have ha : ¬(a = d) := hseg a (by simp)
    have ih' := ih (fun c hc => hseg c (by simp [hc]))
    cases hse : seg' ++ rest with
    | nil =>
      have h1 : seg' = [] := by cases seg' <;> simp_all
      have h2 : rest = [] := by
        subst h1; simpa using hse
      subst h1; subst h2
      simp [hasAdjacent]
    | cons x xs =>
      rw [List.cons_append, hse]
      show ((a = d && x = d) || hasAdjacent d (x :: xs)) = hasAdjacent d rest
      rw [← hse, ih']
      simp [ha]

theorem hasAdjacent_of_delim_free (d : Char) (p : List Char)
    (hfree : ∀ c ∈ p, c ≠ d) : hasAdjacent d p = false := by
  have := hasAdjacent_append_left d p [] hfree
  simpa [hasAdjacent] using this

/-! ## C3: split rejects empty segments -/

theorem split_eurl_loop (d : Char) (p : List Char) (acc : List (List Char)) :
    hasAdjacent d p = true → (splitLoop d p acc).fst = Stat.EURL := by
  induction p, acc using splitLoop.induct d with
  | case1 acc =>
    intro h
    simp [hasAdjacent] at h
  | case2 p acc hp hs =>
    intro h
    rw [splitLoop_empty_seg d p acc hp hs]
  | case3 p acc hp hs ih =>
    intro h
    obtain ⟨t, hr⟩ : ∃ t, p.dropWhile (fun c => c != d) = d :: t := by
      apply dropWhile_cons_head
      intro hnil
      have hp2 : p.takeWhile (fun c => c != d) = p := by
        have htd := List.takeWhile_append_dropWhile (fun c => c != d) p
        rwa [hnil, List.append_nil] at htd
      have hfree : ∀ c ∈ p, c ≠ d := by
        intro c hc
        refine takeWhile_seg_ne d p c ?_
        rw [hp2]
        exact hc
      rw [hasAdjacent_of_delim_free d p hfree] at h
      exact Bool.false_ne_true h
    have hdecomp : p.takeWhile (fun c => c != d) ++ (d :: t) = p := by
      rw [← hr]
      exact List.takeWhile_append_dropWhile (fun c => c != d) p
    have hAdj : hasAdjacent d (d :: t) = true := by
      rw [← hdecomp, hasAdjacent_append_left d _ _ (takeWhile_seg_ne d p)] at h
      exact h
    rw [hr, List.tail_cons] at ih
    rw [splitLoop_step d p acc hp hs, hr, List.tail_cons]
    cases t with
    | nil => simp [hasAdjacent] at hAdj
    | cons b t' =>
      by_cases hb : b = d
      · subst hb
        rw [splitLoop_delim_head]
      · have hAdj' : hasAdjacent d (b :: t') = true := by
          simp only [hasAdjacent, Bool.or_eq_true, Bool.and_eq_true,
            decide_eq_true_eq] at hAdj
          rcases hAdj with ⟨-, hbd⟩ | h2
          · exact absurd hbd hb
          · exact h2
        exact ih hAdj'

theorem splitLoop_mem (d : Char) (p : List Char) (acc : List (List Char)) :
    ∀ seg ∈ (splitLoop d p acc).snd, seg ∈ acc ∨ 0 < seg.length := by
  induction p, acc using splitLoop.induct d with
  | case1 acc =>
    intro seg hseg
    rw [splitLoop_nil] at hseg
    exact Or.inl hseg
  | case2 p acc hp hs =>
    intro seg hseg
    rw [splitLoop_empty_seg d p acc hp hs] at hseg
    exact Or.inl hseg
  | case3 p acc hp hs ih =>
    intro seg hseg
    rw [splitLoop_step d p acc hp hs] at hseg
    rcases ih seg hseg with hin | hlen
    · rcases List.mem_append.mp hin with h1 | h2
      · exact Or.inl h1
      · right
        have hseg2 : seg = p.takeWhile (fun c => c != d) := by simpa using h2
        rw [hseg2]
        exact List.length_pos.mpr hs
    · exact Or.inr hlen

/-- C3: a zero-length run between two adjacent delimiters (after the
optional single leading delimiter) makes split fail with `NC_EURL` rather
than being dropped; consequently every segment split ever pushes is
non-empty; in particular `split("a,,b", ',')` fails with `NC_EURL`. -/
theorem split_rejects_empty_segments :
    (∀ (arg : List Char) (d : Char) (init : List (List Char)),
        hasAdjacent d arg = true → (NC_split_delim arg d init).fst = Stat.EURL)
    ∧ (∀ (arg : List Char) (d : Char) (init : List (List Char)),
        ∀ seg ∈ (NC_split_delim arg d init).snd, seg ∈ init ∨ 0 < seg.length)
    ∧ (NC_split_delim ['a', ',', ',', 'b'] ',' []).fst = Stat.EURL := by
  refine ⟨?_, ?_, ?_⟩
  · intro arg d init h
    cases arg with
    | nil => simp [hasAdjacent] at h
    | cons c t =>
      rw [NC_split_delim_eq (c :: t) d init (by simp)]
      by_cases hc : c = d
      · rw [hc] at h ⊢
        rw [List.head?_cons, if_pos rfl, List.tail_cons]
        cases t with
        | nil => simp [hasAdjacent] at h
        | cons b t' =>
          by_cases hb : b = d
          · rw [hb, splitLoop_delim_head]
          · have h' : hasAdjacent d (b :: t') = true := by
              simp only [hasAdjacent, Bool.or_eq_true, Bool.and_eq_true,
                decide_eq_true_eq] at h
              rcases h with ⟨-, hbd⟩ | h2
              · exact absurd hbd hb
              · exact h2
            exact split_eurl_loop d (b :: t') init h'
      · have hne : ¬(c :: t).head? = some d := by simp [hc]
        rw [if_neg hne]
        exact split_eurl_loop d (c :: t) init h
  · intro arg d init seg hseg
    cases arg with
    | nil =>
      simp [NC_split_delim] at hseg
      exact Or.inl hseg
    | cons c t =>
      rw [NC_split_delim_eq (c :: t) d init (by simp)] at hseg
      exact splitLoop_mem d _ init seg hseg
  · simp [NC_split_delim, splitLoop]

/-- C3 witness: `split(",,", ',')` contains two adjacent delimiters, hence
fails with `NC_EURL`. -/
theorem split_rejects_empty_witness :
    (NC_split_delim [',', ','] ',' []).fst = Stat.EURL :=
  split_rejects_empty_segments.1 [',', ','] ',' [] (by decide)

/-! ## Structural equations for one split iteration -/

theorem splitLoop_decomp (d : Char) (l r : List Char) (acc : List (List Char))
    (hl : ∀ a ∈ l, (a != d) = true) (hlne : l ≠ []) :
    splitLoop d (l ++ d :: r) acc = splitLoop d r (acc ++ [l]) := by
  have h1 : (l ++ d :: r).takeWhile (fun c => c != d) = l := by
    rw [List.takeWhile_append_of_pos hl]
    simp
  have h2 : (l ++ d :: r).dropWhile (fun c => c != d) = d :: r := by
    rw [List.dropWhile_append_of_pos hl]
    simp
  rw [splitLoop_step d _ acc (by simp) (by rw [h1]; exact hlne), h1, h2,
    List.tail_cons]

theorem splitLoop_nodelim (d : Char) (l : List Char) (acc : List (List Char))
    (hl : ∀ a ∈ l, (a != d) = true) (hlne : l ≠ []) :
    splitLoop d l acc = (Stat.NOERR, acc ++ [l]) := by
  have h1 : l.takeWhile (fun c => c != d) = l :=
    List.takeWhile_eq_self_iff.mpr hl
  have h2 : l.dropWhile (fun c => c != d) = [] := by
    have htd := List.takeWhile_append_dropWhile (fun c => c != d) l
    rw [h1] at htd
    simpa using htd
  rw [splitLoop_step d l acc hlne (by rw [h1]; exact hlne), h1, h2]
  simp [splitLoop_nil]

/-! ## C5: failure atomicity -/

/-- C5 counterexample: when split fails with `NC_EURL` on `"a,,b"` starting
from an empty caller list, the caller's segment list is not left as it was:
the segment parsed before the error remains in it. -/
theorem split_failure_leaves_segments :
    (NC_split_delim ['a', ',', ',', 'b'] ',' []).fst = Stat.EURL ∧
    (NC_split_delim ['a', ',', ',', 'b'] ',' []).snd ≠ [] := by
  constructor <;> simp [NC_split_delim, splitLoop]

theorem splitLoop_acc_extends (d : Char) (p : List Char)
    (acc : List (List Char)) :
    ∃ extra, (splitLoop d p acc).snd = acc ++ extra := by
  induction p, acc using splitLoop.induct d with
  | case1 acc => exact ⟨[], by simp [splitLoop_nil]⟩
  | case2 p acc hp hs =>
    exact ⟨[], by rw [splitLoop_empty_seg d p acc hp hs]; simp⟩
  | case3 p acc hp hs ih =>
    obtain ⟨extra, hex⟩ := ih
    refine ⟨[p.takeWhile (fun c => c != d)] ++ extra, ?_⟩
    rw [splitLoop_step d p acc hp hs, hex, List.append_assoc]

/-- C5 (amended): split never removes or alters the caller's pre-existing
segments, but on failure the segments parsed before the error remain
appended to the caller's list (no rollback); atomicity holds one level up:
when `NC_getmodelist` fails it discards the partially built list and hands
nothing to the caller. -/
theorem split_failure_containment :
    (∀ (arg : List Char) (d : Char) (init : List (List Char)),
        ∃ extra, (NC_split_delim arg d init).snd = init ++ extra)
    ∧ (∀ ms : Option (List Char),
        (NC_getmodelist ms).fst ≠ Stat.NOERR → (NC_getmodelist ms).snd = none) := by
  constructor
  · intro arg d init
    cases arg with
    | nil => exact ⟨[], by simp [NC_split_delim]⟩
    | cons c t =>
      rw [NC_split_delim_eq (c :: t) d init (by simp)]
      exact splitLoop_acc_extends d _ init
  · intro ms h
    cases ms with
    | none => simp [NC_getmodelist] at h
    | some s =>
      simp only [NC_getmodelist] at h ⊢
      by_cases hlen : s.length = 0
      · rw [if_pos hlen] at h
        exact absurd rfl h
      · rw [if_neg hlen] at h ⊢
        generalize NC_split_delim s ',' [] = res at h ⊢
        rcases res with ⟨st, segs⟩
        cases st with
        | NOERR => exact absurd rfl h
        | EURL => rfl
        | ENOMEM => rfl
        | EINVAL => rfl

/-- C5 witness: on the malformed mode string `"a,,b"`, `NC_getmodelist`
fails and returns no list to the caller. -/
theorem split_failure_containment_witness :
    (NC_getmodelist (some ['a', ',', ',', 'b'])).snd = none :=
  split_failure_containment.2 (some ['a', ',', ',', 'b'])
    (by simp [NC_getmodelist, NC_split_delim, splitLoop])

/-! ## C9: a trailing delimiter is accepted -/

theorem splitLoop_append_delim (d : Char) (p : List Char)
    (acc : List (List Char)) :
    p ≠ [] → p.getLast? ≠ some d → (splitLoop d p acc).fst = Stat.NOERR →
    splitLoop d (p ++ [d]) acc = splitLoop d p acc := by
  induction p, acc using splitLoop.induct d with
  | case1 acc =>
    intro hne _ _
    exact absurd rfl hne
  | case2 p acc hp hs =>
    intro _ _ hok
    rw [splitLoop_empty_seg d p acc hp hs] at hok
    exact absurd hok (by simp)
  | case3 p acc hp hs ih =>
    intro _ hlast hok
    have hallseg : ∀ a ∈ p.takeWhile (fun c => c != d), (a != d) = true := by
      intro a ha
      have hmem := List.mem_takeWhile_imp ha
      exact hmem
    cases hnil : p.dropWhile (fun c => c != d) with
    | nil =>
      have hp2 : p.takeWhile (fun c => c != d) = p := by
        have htd := List.takeWhile_append_dropWhile (fun c => c != d) p
        rwa [hnil, List.append_nil] at htd
      have hallp : ∀ a ∈ p, (a != d) = true := by
        intro a ha
        have ham : a ∈ p.takeWhile (fun c => c != d) := by
          rw [hp2]
          exact ha
        have hmem2 := List.mem_takeWhile_imp ham
        exact hmem2
      rw [show p ++ [d] = p ++ d :: ([] : List Char) from rfl,
        splitLoop_decomp d p [] acc hallp hp, splitLoop_nil,
        splitLoop_nodelim d p acc hallp hp]
    | cons a t =>
      have had : a = d := by
        have hh := List.head?_dropWhile_not (fun c => c != d) p
        rw [hnil] at hh
        simp only [List.head?_cons] at hh
        simpa using hh
      rw [had] at hnil
      have hdecomp : p.takeWhile (fun c => c != d) ++ (d :: t) = p := by
        rw [← hnil]
        exact List.takeWhile_append_dropWhile (fun c => c != d) p
      cases t with
      | nil =>
        exfalso
        apply hlast
        rw [← hdecomp]
        exact List.getLast?_concat _
      | cons b t' =>
        rw [hnil, List.tail_cons] at ih
        have hok' : (splitLoop d (b :: t')
            (acc ++ [p.takeWhile (fun c => c != d)])).fst = Stat.NOERR := by
          rw [splitLoop_step d p acc hp hs, hnil, List.tail_cons] at hok
          exact hok
        have hlast' : (b :: t').getLast? ≠ some d := by
          intro hgl
          apply hlast
          rw [← hdecomp, List.getLast?_append_of_ne_nil _ (by simp),
            List.getLast?_cons_cons]
          exact hgl
        have hL : splitLoop d (p ++ [d]) acc
            = splitLoop d ((b :: t') ++ [d])
                (acc ++ [p.takeWhile (fun c => c != d)]) := by
          have hsh : p ++ [d]
              = p.takeWhile (fun c => c != d) ++ d :: ((b :: t') ++ [d]) := by
            conv_lhs => rw [← hdecomp]
            simp
          rw [hsh]
          exact splitLoop_decomp d _ _ acc hallseg hs
        have hR : splitLoop d p acc
            = splitLoop d (b :: t') (acc ++ [p.takeWhile (fun c => c != d)]) := by
          conv_lhs => rw [← hdecomp]
          exact splitLoop_decomp d _ _ acc hallseg hs
        rw [hL, hR]
        exact ih (by simp) hlast' hok'

/-- C9: for every input ending in the delimiter whose preceding runs are
all non-empty (i.e. the input is `s ++ [d]` where `split(s)` succeeds and
`s` does not itself end in the delimiter), split succeeds and returns
exactly the segments of `s` — the zero-length run between the final
delimiter and the end of the string is dropped without an error; in
particular `split("a,", ',') = ["a"]`. -/
theorem split_trailing_delim :
    (∀ (s : List Char) (d : Char) (init : List (List Char)),
        (NC_split_delim s d init).fst = Stat.NOERR → s.getLast? ≠ some d →
        NC_split_delim (s ++ [d]) d init = NC_split_delim s d init)
    ∧ NC_split_delim ['a', ','] ',' [] = (Stat.NOERR, [['a']]) := by
  constructor
  · intro s d init hok hlast
    cases s with
    | nil =>
      simp only [List.nil_append]
      have hhd : ([d] : List Char).head? = some d := rfl
      rw [NC_split_delim_eq [d] d init (by simp), if_pos hhd, List.tail_cons,
        splitLoop_nil]
      simp [NC_split_delim]
    | cons c t =>
      rw [NC_split_delim_eq (c :: t) d init (by simp)] at hok ⊢
      rw [NC_split_delim_eq ((c :: t) ++ [d]) d init (by simp)]
      by_cases hc : c = d
      · rw [hc] at hok hlast ⊢
        simp only [List.cons_append, List.head?_cons, if_pos rfl,
          List.tail_cons] at hok hlast ⊢
        cases t with
        | nil =>
          exfalso
          exact hlast (List.getLast?_concat [])
        | cons b t' =>
          refine splitLoop_append_delim d (b :: t') init (by simp) ?_ hok
          intro hgl
          exact hlast (by rw [List.getLast?_cons_cons]; exact hgl)
      · have hh1 : ¬((c :: t) ++ [d]).head? = some d := by simp [hc]
        have hh2 : ¬(c :: t).head? = some d := by simp [hc]
        rw [if_neg hh2] at hok ⊢
        rw [if_neg hh1]
        exact splitLoop_append_delim d (c :: t) init (by simp) hlast hok
  · simp [NC_split_delim, splitLoop]

/-- C9 witness: appending a trailing comma to `"a"` leaves the split
result unchanged. -/
theorem split_trailing_delim_witness :
    NC_split_delim (['a'] ++ [',']) ',' [] = NC_split_delim ['a'] ',' [] :=
  split_trailing_delim.1 ['a'] ',' []
    (by simp [NC_split_delim, splitLoop]) (by decide)

/-! ## C6: split validity (reconstruction) -/

theorem joinDelim_cons_of_ne_nil (d : Char) (s : List Char)
    (rest : List (List Char)) (h : rest ≠ []) :
    joinDelim d (s :: rest) = s ++ d :: joinDelim d rest := by
  cases rest with
  | nil => exact absurd rfl h
  | cons r rs => rfl

theorem splitLoop_reconstruct (d : Char) (p : List Char)
    (acc : List (List Char)) :
    p ≠ [] → p.head? ≠ some d → p.getLast? ≠ some d →
    hasAdjacent d p = false →
    ∃ parts, parts ≠ [] ∧ splitLoop d p acc = (Stat.NOERR, acc ++ parts) ∧
      joinDelim d parts = p := by
  induction p, acc using splitLoop.induct d with
  | case1 acc =>
    intro hne _ _ _
    exact absurd rfl hne
  | case2 p acc hp hs =>
    intro _ hhead _ _
    exfalso
    cases p with
    | nil => exact hp rfl
    | cons c t =>
      rw [List.takeWhile_cons] at hs
      by_cases hcd : (c != d) = true
      · rw [if_pos hcd] at hs
        simp at hs
      · have hc : c = d := by simpa using hcd
        exact hhead (by rw [hc]; rfl)
  | case3 p acc hp hs ih =>
    intro _ hhead hlast hadj
    have hallseg : ∀ a ∈ p.takeWhile (fun c => c != d), (a != d) = true := by
      intro a ha
      have hmem := List.mem_takeWhile_imp ha
      exact hmem
    cases hnil : p.dropWhile (fun c => c != d) with
    | nil =>
      have hp2 : p.takeWhile (fun c => c != d) = p := by
        have htd := List.takeWhile_append_dropWhile (fun c => c != d) p
        rwa [hnil, List.append_nil] at htd
      have hallp : ∀ a ∈ p, (a != d) = true := by
        intro a ha
        have ham : a ∈ p.takeWhile (fun c => c != d) := by
          rw [hp2]
          exact ha
        have hmem := List.mem_takeWhile_imp ham
        exact hmem
      refine ⟨[p], by simp, ?_, rfl⟩
      rw [splitLoop_nodelim d p acc hallp hp]
    | cons a t =>
      have had : a = d := by
        have hh := List.head?_dropWhile_not (fun c => c != d) p
        rw [hnil] at hh
        simp only [List.head?_cons] at hh
        simpa using hh
      rw [had] at hnil
      have hdecomp : p.takeWhile (fun c => c != d) ++ (d :: t) = p := by
        rw [← hnil]
        exact List.takeWhile_append_dropWhile (fun c => c != d) p
      cases t with
      | nil =>
        exfalso
        apply hlast
        rw [← hdecomp]
        exact List.getLast?_concat _
      | cons b t' =>
        rw [hnil, List.tail_cons] at ih
        have hbne : b ≠ d := by
          intro hbd
          have hat : hasAdjacent d p = true := by
            rw [← hdecomp,
              hasAdjacent_append_left d _ _ (takeWhile_seg_ne d p), hbd]
            simp [hasAdjacent]
          rw [hadj] at hat
          exact Bool.false_ne_true hat
        have hhead2 : (b :: t').head? ≠ some d := by simp [hbne]
        have hlast2 : (b :: t').getLast? ≠ some d := by
          intro hgl
          apply hlast
          rw [← hdecomp, List.getLast?_append_of_ne_nil _ (by simp),
            List.getLast?_cons_cons]
          exact hgl
        have hadj2 : hasAdjacent d (b :: t') = false := by
          have h1 : hasAdjacent d (d :: b :: t') = false := by
            rw [← hdecomp,
              hasAdjacent_append_left d _ _ (takeWhile_seg_ne d p)] at hadj
            exact hadj
          simp only [hasAdjacent, Bool.or_eq_false_iff] at h1
          exact h1.2
        obtain ⟨parts, hpne, hres, hjoin⟩ := ih (by simp) hhead2 hlast2 hadj2
        refine ⟨p.takeWhile (fun c => c != d) :: parts, by simp, ?_, ?_⟩
        · have hR : splitLoop d p acc
              = splitLoop d (b :: t')
                  (acc ++ [p.takeWhile (fun c => c != d)]) := by
            conv_lhs => rw [← hdecomp]
            exact splitLoop_decomp d _ _ acc hallseg hs
          rw [hR, hres, List.append_assoc]
          rfl
        · rw [joinDelim_cons_of_ne_nil d _ parts hpne, hjoin, hdecomp]

/-- C6: for every non-empty string whose first and last characters are not
the delimiter and which has no two adjacent delimiters, split succeeds and
interleaving its segments with single occurrences of the delimiter
reproduces the input exactly. -/
theorem split_reconstruction (s : List Char) (d : Char)
    (hne : s ≠ []) (hhead : s.head? ≠ some d) (hlast : s.getLast? ≠ some d)
    (hadj : hasAdjacent d s = false) :
    (NC_split_delim s d []).fst = Stat.NOERR ∧
    joinDelim d (NC_split_delim s d []).snd = s := by
  obtain ⟨parts, hpne, hres, hjoin⟩ :=
    splitLoop_reconstruct d s [] hne hhead hlast hadj
  cases s with
  | nil => exact absurd rfl hne
  | cons c t =>
    rw [NC_split_delim_eq (c :: t) d [] (by simp), if_neg hhead, hres]
    refine ⟨rfl, ?_⟩
    simp only [List.nil_append]
    exact hjoin

/-- C6 witness: splitting `"a,b"` at `','` succeeds and re-interleaving
with `','` gives back `"a,b"`. -/
theorem split_reconstruction_witness :
    (NC_split_delim ['a', ',', 'b'] ',' []).fst = Stat.NOERR ∧
    joinDelim ',' (NC_split_delim ['a', ',', 'b'] ',' []).snd
      = ['a', ',', 'b'] :=
  split_reconstruction ['a', ',', 'b'] ','
    (by decide) (by decide) (by decide) (by decide)

/-! ## C10: unescape and the trailing unpaired backslash -/

theorem takeWhile_length_eq (q : Char → Bool) (l : List Char)
    (h : (l.takeWhile q).length = l.length) : ∀ c ∈ l, q c = true := by
  induction l with
  | nil =>
    intro c hc
    simp at hc
  | cons x xs ih =>
    rw [List.takeWhile_cons] at h
    by_cases hx : q x = true
    · rw [if_pos hx] at h
      simp only [List.length_cons, Nat.succ.injEq] at h
      intro c hc
      rcases List.mem_cons.mp hc with rfl | hm
      · exact hx
      · exact ih h c hm
    · rw [if_neg hx] at h
      simp at h
  
theorem trailingRun_all (l : List Char) (h : ∀ c ∈ l, c = '\\') :
    trailingRun l = l.length := by
  unfold trailingRun
  have hself : l.reverse.takeWhile (fun c => c = '\\') = l.reverse := by
    refine List.takeWhile_eq_self_iff.mpr ?_
    intro x hx
    have hxm := h x (List.mem_reverse.mp hx)
    simp [hxm]
  rw [hself, List.length_reverse]

theorem trailingRun_cons_ne (x : Char) (l : List Char) (hx : x ≠ '\\') :
    trailingRun (x :: l) = trailingRun l := by
  unfold trailingRun
  rw [List.reverse_cons, List.takeWhile_append]
  have hq : ([x].takeWhile (fun c => c = '\\')) = [] := by simp [hx]
  by_cases hc : (l.reverse.takeWhile (fun c => c = '\\')).length
      = l.reverse.length
  · rw [if_pos hc, hq, List.append_nil]
    exact hc.symm
  · rw [if_neg hc]

theorem trailingRun_cons_of_mem_ne (x : Char) (l : List Char)
    (h : ∃ c ∈ l, c ≠ '\\') : trailingRun (x :: l) = trailingRun l := by
  unfold trailingRun
  rw [List.reverse_cons, List.takeWhile_append]
  have hcond : ¬ ((l.reverse.takeWhile (fun c => c = '\\')).length
      = l.reverse.length) := by
    intro hlen
    obtain ⟨c0, hc0, hne0⟩ := h
    have hq := takeWhile_length_eq _ _ hlen c0 (List.mem_reverse.mpr hc0)
    simp at hq
    exact hne0 hq
  rw [if_neg hcond]

theorem trailingRun_parity_two (cc : Char) (rest : List Char) :
    Odd (trailingRun ('\\' :: cc :: rest)) ↔ Odd (trailingRun rest) := by
  by_cases hall : ∀ c ∈ cc :: rest, c = '\\'
  · have h1 : trailingRun ('\\' :: cc :: rest) = rest.length + 2 := by
      have hta := trailingRun_all ('\\' :: cc :: rest) (by
        intro c hc
        rcases List.mem_cons.mp hc with rfl | hm
        · rfl
        · exact hall c hm)
      rw [List.length_cons, List.length_cons] at hta
      exact hta
    have h2 : trailingRun rest = rest.length :=
      trailingRun_all rest (fun c hc => hall c (by simp [hc]))
    rw [h1, h2, Nat.odd_iff, Nat.odd_iff]
    omega
  · push_neg at hall
    obtain ⟨c0, hc0, hne0⟩ := hall
    have h1 : trailingRun ('\\' :: cc :: rest) = trailingRun (cc :: rest) :=
      trailingRun_cons_of_mem_ne '\\' (cc :: rest) ⟨c0, hc0, hne0⟩
    by_cases hcc : cc = '\\'
    · have hrm : ∃ c ∈ rest, c ≠ '\\' := by
        rcases List.mem_cons.mp hc0 with rfl | hm
        · exact absurd hcc hne0
        · exact ⟨c0, hm, hne0⟩
      rw [h1, trailingRun_cons_of_mem_ne cc rest hrm]
    · rw [h1, trailingRun_cons_ne cc rest hcc]

theorem unescLoop_oob_iff (esc out : List Char) :
    (unescLoop esc out).fst = UStat.oob ↔ Odd (trailingRun esc) := by
  induction esc, out using unescLoop.induct with
  | case1 out =>
    simp [unescLoop, trailingRun, Nat.odd_iff]
  | case2 out =>
    have h1 : trailingRun ['\\'] = 1 := rfl
    simp [unescLoop, h1]
  | case3 out c rest ih =>
    have hstep : unescLoop ('\\' :: c :: rest) out
        = unescLoop rest (out ++ [c]) := by
      simp [unescLoop]
    rw [hstep, ih]
    exact (trailingRun_parity_two c rest).symm
  | case4 c rest out hc ih =>
    have hstep : unescLoop (c :: rest) out = unescLoop rest (out ++ [c]) := by
      cases rest with
      | nil => rw [unescLoop.eq_2, if_neg hc]
      | cons c2 r2 => rw [unescLoop.eq_3, if_neg hc]
    rw [hstep, ih, trailingRun_cons_ne c rest hc]

/-- C10: the unescape scan treats any `\` as an escape prefix consuming the
next byte, so it runs past the end of the input exactly when the input ends
in an unpaired backslash (an odd-length trailing run of backslashes); when
the trailing run is even the scan stops at the input's end. -/
theorem unescape_oob_iff_trailing_odd (esc : List Char) :
    (NC_backslashUnescape esc).fst = UStat.oob ↔ Odd (trailingRun esc) :=
  unescLoop_oob_iff esc []

/-- C10 witness: the single-character input `"\"` ends in an unpaired
backslash and drives the scan out of bounds; `"\\"` does not. -/
theorem unescape_oob_witness :
    (NC_backslashUnescape ['\\']).fst = UStat.oob ∧
    (NC_backslashUnescape ['\\', '\\']).fst ≠ UStat.oob := by
  constructor
  · exact (unescape_oob_iff_trailing_odd ['\\']).mpr (by decide)
  · intro hoob
    have hodd := (unescape_oob_iff_trailing_odd ['\\', '\\']).mp hoob
    have : ¬ Odd (trailingRun ['\\', '\\']) := by decide
    exact this hodd

/-! ## C7: join canonical form -/

theorem foldl_append_withSlash (segs : List (List Char)) :
    ∀ init : List Char,
      segs.foldl
        (fun buf seg => buf ++ (if seg.head? = some '/' then seg else '/' :: seg))
        init
      = init ++ (segs.map withSlash).flatten := by
  induction segs with
  | nil =>
    intro init
    simp
  | cons s rest ih =>
    intro init
    simp only [List.foldl_cons, List.map_cons, List.flatten_cons]
    rw [ih, List.append_assoc]
    rfl

/-- C7: join of a null sequence fails with `NC_EINVAL`; join of the empty
sequence is exactly `"/"`; join of a non-empty sequence emits the segments
in order, each preceded by `'/'` exactly when it does not already start
with `'/'`, rejecting no segment; in particular `join(["a","b"]) = "/a/b"`
and `join(["/a"]) = "/a"`. -/
theorem join_canonical :
    (NC_join none).fst = Stat.EINVAL
    ∧ NC_join (some []) = (Stat.NOERR, some ['/'])
    ∧ (∀ segs : List (List Char), segs ≠ [] →
        NC_join (some segs) = (Stat.NOERR, some ((segs.map withSlash).flatten)))
    ∧ NC_join (some [['a'], ['b']]) = (Stat.NOERR, some ['/', 'a', '/', 'b'])
    ∧ NC_join (some [['/', 'a']]) = (Stat.NOERR, some ['/', 'a']) := by
  refine ⟨rfl, rfl, ?_, by decide, by decide⟩
  intro segs hne
  cases segs with
  | nil => exact absurd rfl hne
  | cons s rest =>
    simp only [NC_join, List.length_cons]
    rw [if_neg (by simp)]
    rw [foldl_append_withSlash (s :: rest) []]
    simp

/-- C7 witness: joining the one-segment sequence `["x"]` yields `"/x"`. -/
theorem join_canonical_witness :
    NC_join (some [['x']]) = (Stat.NOERR, some ['/', 'x']) := by
  have h := join_canonical.2.2.1 [['x']] (by decide)
  rw [show (List.map withSlash [['x']]).flatten = ['/', 'x'] from by decide] at h
  exact h

/-! ## C4: mode-tag membership -/

theorem getmodelist_split (v : List Char) :
    NC_getmodelist (some v)
      = ((NC_split_delim v ',' []).fst,
         if (NC_split_delim v ',' []).fst = Stat.NOERR
         then some (NC_split_delim v ',' []).snd else none) := by
  by_cases hv : v.length = 0
  · have hv2 : v = [] := List.length_eq_zero.mp hv
    subst hv2
    simp [NC_getmodelist, NC_split_delim]
  · simp only [NC_getmodelist, if_neg hv]
    generalize NC_split_delim v ',' [] = res
    rcases res with ⟨st, segs⟩
    cases st with
    | NOERR => rfl
    | EURL => rfl
    | ENOMEM => rfl
    | EINVAL => rfl

theorem testmode_eq (frag : List Char → Option (List Char)) (tag : List Char) :
    NC_testmode frag tag
      = match frag modeKey with
        | none => false
        | some v =>
          if (NC_split_delim v ',' []).fst = Stat.NOERR
          then (NC_split_delim v ',' []).snd.any (fun m => strcaseEq m tag)
          else false := by
  rcases hk : frag modeKey with _ | v
  · simp [NC_testmode, hk]
  · simp only [NC_testmode, hk, getmodelist_split v]
    by_cases hst : (NC_split_delim v ',' []).fst = Stat.NOERR
    · rw [hst]
      simp
    · cases hst2 : (NC_split_delim v ',' []).fst with
      | NOERR => exact absurd hst2 hst
      | EURL => simp
      | ENOMEM => simp
      | EINVAL => simp

/-- C4: `NC_testmode` returns true iff the fragment store maps `"mode"` to
a value that splits cleanly on commas with some segment equal to the tag
case-insensitively; an absent `"mode"` key yields false with no error, and
a malformed mode value (split failure) is swallowed, also yielding false. -/
theorem testmode_contract (frag : List Char → Option (List Char))
    (tag : List Char) :
    (frag modeKey = none → NC_testmode frag tag = false)
    ∧ (∀ v, frag modeKey = some v →
        (NC_split_delim v ',' []).fst ≠ Stat.NOERR →
        NC_testmode frag tag = false)
    ∧ (NC_testmode frag tag = true ↔
        ∃ v, frag modeKey = some v
          ∧ (NC_split_delim v ',' []).fst = Stat.NOERR
          ∧ ∃ seg ∈ (NC_split_delim v ',' []).snd, strcaseEq seg tag = true) := by
  refine ⟨?_, ?_, ?_⟩
  · intro h
    rw [testmode_eq, h]
  · intro v hv hbad
    rw [testmode_eq, hv]
    show (if (NC_split_delim v ',' []).fst = Stat.NOERR
          then (NC_split_delim v ',' []).snd.any (fun m => strcaseEq m tag)
          else false) = false
    exact if_neg hbad
  · rw [testmode_eq]
    rcases hk : frag modeKey with _ | v
    · simp
    · show (if (NC_split_delim v ',' []).fst = Stat.NOERR
            then (NC_split_delim v ',' []).snd.any (fun m => strcaseEq m tag)
            else false) = true ↔ _
      by_cases hst : (NC_split_delim v ',' []).fst = Stat.NOERR
      · rw [if_pos hst]
        constructor
        · intro h
          refine ⟨v, rfl, hst, ?_⟩
          simpa [List.any_eq_true] using h
        · rintro ⟨v2, hv2, hst2, seg, hmem, heq⟩
          have hvv : v2 = v := (Option.some_inj.mp hv2).symm
          subst hvv
          rw [List.any_eq_true]
          exact ⟨seg, hmem, heq⟩
      · rw [if_neg hst]
        constructor
        · intro h
          exact absurd h (by simp)
        · rintro ⟨v2, hv2, hst2, -⟩
          have hvv : v2 = v := (Option.some_inj.mp hv2).symm
          subst hvv
          exact absurd hst2 hst

/-- C4 witness: a fragment store without a `"mode"` key makes
`NC_testmode` return false. -/
theorem testmode_witness :
    NC_testmode (fun _ => none) ['x'] = false :=
  (testmode_contract (fun _ => none) ['x']).1 rfl

end Dutil
